import Mathlib

/-!
Verification of the letterboxed solver core (src/letterboxed/main.go).

Words and box sides are modeled as lists of characters (`Word`); the Go
source only ever handles ASCII input, for which Go's byte-indexed strings
coincide with their rune sequences.  Go's `map[rune]*trie` is modeled as an
association list with distinct keys; `trie` pointers become the inductive
`Trie`.  Functions that can terminate abnormally in Go (`log.Fatalf`,
nil-pointer dereference) return an explicit result type instead.
-/

namespace LetterBoxed

abbrev Word := List Char

/-- The `trie` struct of main.go: a completeness flag and a child map. -/
inductive Trie : Type where
  | node : Bool → List (Char × Trie) → Trie
deriving Inhabited

/-- The `complete` field of a trie node. -/
def Trie.complete : Trie → Bool
  | .node b _ => b

/-- The `children` field of a trie node. -/
def Trie.children : Trie → List (Char × Trie)
  | .node _ cs => cs

/-- Lookup in the child map, `t.children[ch]` with its found flag. -/
def lookupChild : List (Char × Trie) → Char → Option Trie
  | [], _ => none
  | (k, v) :: rest, c => if k = c then some v else lookupChild rest c

@[simp] theorem lookupChild_nil (c : Char) : lookupChild [] c = none := rfl

theorem lookupChild_cons (k : Char) (v : Trie) (rest : List (Char × Trie)) (c : Char) :
    lookupChild ((k, v) :: rest) c = if k = c then some v else lookupChild rest c := rfl

/-- Walking the trie along a word, the loop shared by `isWordValid`,
`allValidWords` and `explore` in main.go: descend child by child,
`none` when some child is missing. -/
def Trie.find : Trie → Word → Option Trie
  | t, [] => some t
  | t, c :: rest =>
      match lookupChild t.children c with
      | none => none
      | some next => next.find rest

/-- Whether following `w` from `t` reaches an existing node marked complete. -/
def completedAt (t : Trie) (w : Word) : Bool :=
  match t.find w with
  | none => false
  | some n => n.complete

/-- The `isWordValid` method of main.go.  Note that it never inspects the
`complete` flag: it only checks that every child on the path exists. -/
def isWordValid : Trie → Word → Bool
  | _, [] => true
  | t, c :: rest =>
      match lookupChild t.children c with
      | none => false
      | some next => isWordValid next rest

/-- ASCII uppercasing of one character, modeling `strings.ToUpper`. -/
def charUpper (c : Char) : Char :=
  if 'a' ≤ c ∧ c ≤ 'z' then Char.ofNat (c.toNat - 32) else c

/-- ASCII uppercasing of a word. -/
def wordUpper (w : Word) : Word := w.map charUpper

/-- The characters filtered out by `loadWords`: `"1234567890-'.!@#$%^&*()"`. -/
def filteredChars : List Char :=
  ['1', '2', '3', '4', '5', '6', '7', '8', '9', '0', '-', Char.ofNat 39,
   '.', '!', '@', '#', '$', '%', '^', '&', '*', '(', ')']

/-- Insertion of (the uppercased) `w` into the trie, as performed by the
scanner loop of `loadWords`: walk the word, and when a child is missing
create it with `complete := i == len(word)-1`.  A pre-existing node is
descended into without touching its `complete` flag. -/
def trieInsert : Trie → Word → Trie
  | t, [] => t
  | .node b cs, c :: rest =>
      match lookupChild cs c with
      | some child => Trie.node b (updateChild cs c (trieInsert child rest))
      | none => Trie.node b (cs ++ [(c, trieInsert (Trie.node (rest = []) []) rest)])
where
  /-- Replace the binding of `c` in the child map. -/
  updateChild : List (Char × Trie) → Char → Trie → List (Char × Trie)
    | [], _, _ => []
    | (k, v) :: rest, c, nv => if k = c then (c, nv) :: rest else (k, v) :: updateChild rest c nv

/-- The `loadWords` trie construction from an in-memory word source: start
from `trie{children: make(map)}`, skip words containing filtered characters,
and insert the uppercased remainder in order. -/
def buildTrie (ws : List Word) : Trie :=
  ws.foldl
    (fun t w => if w.any (fun c => c ∈ filteredChars) then t else trieInsert t (wordUpper w))
    (Trie.node false [])

/-- The `sortedChildren` method: child letters in ascending order. -/
def sortedChildren (t : Trie) : List Char :=
  (t.children.map Prod.fst).mergeSort (fun a b => decide (a ≤ b))

theorem sizeOf_lookupChild {cs : List (Char × Trie)} {c : Char} {t : Trie}
    (h : lookupChild cs c = some t) : sizeOf t < sizeOf cs := by
  induction cs with
  | nil => simp [lookupChild] at h
  | cons hd tl ih =>
      obtain ⟨k, v⟩ := hd
      rw [lookupChild_cons] at h
      by_cases hk : k = c
      · simp [hk] at h
        subst h
        simp only [Prod.mk.sizeOf_spec, List.cons.sizeOf_spec]
        omega
      · simp [hk] at h
        have := ih h
        simp only [List.cons.sizeOf_spec]
        omega

theorem sizeOf_child_lt {t next : Trie} {c : Char}
    (h : lookupChild t.children c = some next) : sizeOf next < sizeOf t := by
  obtain ⟨b, cs⟩ := t
  simp only [Trie.children] at h
  have := sizeOf_lookupChild h
  simp only [Trie.node.sizeOf_spec]
  omega

mutual
/-- The anonymous `helper` closure inside `allValidWords`: enumerate the
words strictly below `curr`, visiting children in ascending letter order.
A child contributes itself when it is a leaf or marked complete, then all
recursively found words prefixed with its letter. -/
def avwHelper (curr : Trie) : List Word :=
  avwChildren curr (sortedChildren curr)
  termination_by (sizeOf curr, 1, 0)

/-- The loop of `avwHelper` over the sorted child letters. -/
def avwChildren (curr : Trie) (cs : List Char) : List Word :=
  match cs with
  | [] => []
  | ch :: rest =>
      (match h : lookupChild curr.children ch with
       | none => []
       | some next =>
          if next.children.isEmpty then [[ch]]
          else (if next.complete then [[ch]] else [])
                ++ (avwHelper next).map (fun w => ch :: w))
      ++ avwChildren curr rest
  termination_by (sizeOf curr, 0, cs.length)
  decreasing_by
    · exact Prod.Lex.left _ _ (sizeOf_child_lt h)
    · exact Prod.Lex.right _ (Prod.Lex.right _ (Nat.lt_succ_self _))
end

/-- The `allValidWords` method: descend to the node for `pre` (empty result
if the path does not exist), then prefix every enumerated word with `pre`. -/
def allValidWords (t : Trie) (pre : Word) : List Word :=
  match t.find pre with
  | none => []
  | some curr => (avwHelper curr).map (fun w => pre ++ w)

/-- The `.reset` token of `explore`. -/
def dotReset : Word := ".reset".toList

/-- The `.valid` token of `explore`. -/
def dotValid : Word := ".valid".toList

/-- The `explore` method of main.go, printing elided.  The returned pair is
(new current word, whether an error was returned). -/
def explore (t : Trie) (text currWord : Word) : Word × Bool :=
  if text = dotReset then ([], false)
  else if text = dotValid then (currWord, false)
  else
    let newWord := wordUpper (currWord ++ text)
    match t.find newWord with
    | none => (currWord, true)
    | some currTrie =>
        if currTrie.children.isEmpty then ([], false) else (newWord, false)

mutual
/-- The `validWordHelper` function of main.go: for every group other than
`lastActiveGroup`, for every letter of that group with a child in the
current node, record `letters ++ [ch]` when the child is complete and at
least two letters were already accumulated, and recurse into the child with
that group now forbidden. -/
def validWordHelper (currTrie : Trie) (letters : Word) (groupings : List Word)
    (lastActiveGroup : Int) : List Word :=
  vwGroups currTrie letters groupings lastActiveGroup 0 groupings
  termination_by (sizeOf currTrie, 2, 0)

/-- The loop of `validWordHelper` over the groups, `i` being the index of
the first group of `rem` within the full `groupings`. -/
def vwGroups (currTrie : Trie) (letters : Word) (groupings : List Word)
    (lastActiveGroup : Int) (i : Nat) (rem : List Word) : List Word :=
  match rem with
  | [] => []
  | g :: rest =>
      (if (i : Int) = lastActiveGroup then [] else vwChars currTrie letters groupings i g)
        ++ vwGroups currTrie letters groupings lastActiveGroup (i + 1) rest
  termination_by (sizeOf currTrie, 1, rem.length)

/-- The loop of `validWordHelper` over one group's letters. -/
def vwChars (currTrie : Trie) (letters : Word) (groupings : List Word)
    (i : Nat) (chars : Word) : List Word :=
  match chars with
  | [] => []
  | ch :: rest =>
      (match h : lookupChild currTrie.children ch with
       | none => []
       | some next =>
          (if next.complete ∧ 2 ≤ letters.length then [letters ++ [ch]] else [])
            ++ validWordHelper next (letters ++ [ch]) groupings (i : Int))
        ++ vwChars currTrie letters groupings i rest
  termination_by (sizeOf currTrie, 0, chars.length)
  decreasing_by
    · exact Prod.Lex.left _ _ (sizeOf_child_lt h)
    · exact Prod.Lex.right _ (Prod.Lex.right _ (Nat.lt_succ_self _))
end

/-- The `validWords` function: all box-valid words, from the root with no
forbidden group (`lastActiveGroup = -1`). -/
def validWords (dictionary : Trie) (gs : List Word) : List Word :=
  validWordHelper dictionary [] gs (-1)

/-- The `startsWith s sub` check: `sub` is a prefix of `s`. -/
def startsWith : Word → Word → Bool
  | _, [] => true
  | [], _ :: _ => false
  | a :: as, b :: bs => a = b && startsWith as bs

/-- The `strings.Contains(s, sub)` check: `sub` occurs contiguously in `s`. -/
def containsSub : Word → Word → Bool
  | [], sub => startsWith [] sub
  | a :: rest, sub => startsWith (a :: rest) sub || containsSub rest sub

/-- The `activeGroup` loop of `validWordsStartingWith`: index of the first
group containing `pre` as a substring, `i` being the index of the first
group examined. -/
def findActiveGroup (gs : List Word) (pre : Word) (i : Nat) : Option Nat :=
  match gs with
  | [] => none
  | g :: rest => if containsSub g pre then some i else findActiveGroup rest pre (i + 1)

/-- How a call of `validWordsStartingWith` ends in Go: a normal return, a
process exit through `log.Fatalf`, or a runtime panic. -/
inductive SWResult : Type where
  | ok : List Word → SWResult
  | fatal : SWResult
  | crash : SWResult
deriving DecidableEq

/-- The `validWordsStartingWith` function of main.go.  `.fatal` models the
`log.Fatalf` call that terminates the process when `pre` is in no group.
`.crash` models a runtime panic: indexing `[]rune(prefix)[0]` of an empty
prefix, or passing the nil `dictionary.children[ch]` to `validWordHelper`,
which dereferences it on the first letter of the first group it scans (a
box layout always has a non-skipped, non-empty group, so the dereference
is always reached). -/
def validWordsStartingWith (dictionary : Trie) (gs : List Word) (pre : Word) : SWResult :=
  match pre with
  | [] => .crash
  | ch :: _ =>
      match findActiveGroup gs pre 0 with
      | none => .fatal
      | some activeGroup =>
          match lookupChild dictionary.children ch with
          | none => .crash
          | some child => .ok (validWordHelper child pre gs (activeGroup : Int))

/-- Insertion into the letter set of `isGameComplete` (`letters[ch] = 1`).
The Go `map[string]int` is modeled as a duplicate-free list. -/
def insLetter (letters : List Char) (c : Char) : List Char :=
  if c ∈ letters then letters else letters ++ [c]

/-- The character loop of `isGameComplete` over one word: insert each
letter into the set, returning early with `true` as soon as the set has 12
members. -/
def igcChars : List Char → Word → List Char × Bool
  | letters, [] => (letters, false)
  | letters, c :: rest =>
      let letters2 := insLetter letters c
      if letters2.length = 12 then (letters2, true) else igcChars letters2 rest

/-- The word loop of `isGameComplete`. -/
def igcWords : List Char → List Word → Bool
  | letters, [] => letters.length = 12
  | letters, w :: ws =>
      match igcChars letters w with
      | (_, true) => true
      | (letters2, false) => igcWords letters2 ws

/-- The `isGameComplete` function of main.go. -/
def isGameComplete (ws : List Word) : Bool := igcWords [] ws

/-- The loop body of the anonymous `helper` inside `numberOfSolutions`:
sum the recursive counts over the continuation words, skipping words
already in the chain.  `none` (a panic or fatal exit below) aborts the
whole computation. -/
def sumChain (rec : List Word → Option Nat) (words : List Word) : List Word → Option Nat
  | [] => some 0
  | n :: rest =>
      if n ∈ words then sumChain rec words rest
      else
        match rec (words ++ [n]) with
        | none => none
        | some k => (sumChain rec words rest).map (fun s => k + s)

/-- One call of the anonymous `helper` inside `numberOfSolutions`, with the
recursive occurrence abstracted as `rec`: take the last letter of the last
chain word, compute the continuations (which can crash, see
`validWordsStartingWith`), and either test a length-3 chain for
completeness or sum over the continuations. -/
def chainStepFn (dictionary : Trie) (gs : List Word) (rec : List Word → Option Nat)
    (words : List Word) : Option Nat :=
  match words.getLast? with
  | none => none
  | some lastWord =>
      match lastWord.getLast? with
      | none => none
      | some lastLetter =>
          match validWordsStartingWith dictionary gs [lastLetter] with
          | .fatal => none
          | .crash => none
          | .ok nextWords =>
              if words.length = 3 then some (if isGameComplete words then 1 else 0)
              else sumChain rec words nextWords

/-- The `helper` recursion, driven by the number of words that can still be
appended before the chain reaches length 3.  `helper` is only ever invoked
on chains of length 1, 2 or 3, for which the fuel (chosen as
`3 - words.length` in `nosHelper`) never runs out before the length check;
the fuel-0 stub is unreachable. -/
def nosHelperAux (dictionary : Trie) (gs : List Word) : Nat → List Word → Option Nat
  | 0 => chainStepFn dictionary gs (fun _ => some 0)
  | fuel + 1 => chainStepFn dictionary gs (nosHelperAux dictionary gs fuel)

/-- The anonymous `helper` closure of `numberOfSolutions`. -/
def nosHelper (dictionary : Trie) (gs : List Word) (words : List Word) : Option Nat :=
  nosHelperAux dictionary gs (3 - words.length) words

/-- Go string comparison `x < y`: lexicographic, byte-wise. -/
def lexLt : Word → Word → Bool
  | _, [] => false
  | [], _ :: _ => true
  | a :: as, b :: bs => decide (a < b) || (a = b && lexLt as bs)

/-- The `byLengthThenAlphabetically` comparator of main.go: length
descending, then lexicographic ascending. -/
def rankLess (x y : Word) : Bool :=
  decide (y.length < x.length) || (decide (x.length = y.length) && lexLt x y)

/-- The `sort.Slice(words, byLengthThenAlphabetically)` call.  `sort.Slice`
produces some permutation with no inversion for the strict comparator;
since only equal words compare as ties, that permutation is unique as a
sequence and is the one `mergeSort` computes for the complemented
comparator. -/
def rankSort (ws : List Word) : List Word :=
  ws.mergeSort (fun x y => !rankLess y x)

/-- The outer loop of `numberOfSolutions`: sum `helper([w])` over the
(sorted) box-valid words, a panic aborting the computation. -/
def sumOuter (f : Word → Option Nat) : List Word → Option Nat
  | [] => some 0
  | w :: rest =>
      match f w with
      | none => none
      | some k => (sumOuter f rest).map (fun s => k + s)

/-- The `numberOfSolutions` function of main.go.  `none` means the Go
program did not return from the call (runtime panic or `log.Fatalf`). -/
def numberOfSolutions (dictionary : Trie) (gs : List Word) : Option Nat :=
  sumOuter (fun w => nosHelper dictionary gs [w]) (rankSort (validWords dictionary gs))

/-- Two letters lie on a common configured side. -/
def sameSide (gs : List Word) (a b : Char) : Bool :=
  gs.any (fun g => a ∈ g && b ∈ g)

/-- No two consecutive letters of the word lie on a common side. -/
def adjOk (gs : List Word) : Word → Bool
  | [] => true
  | [_] => true
  | a :: b :: rest => !sameSide gs a b && adjOk gs (b :: rest)

/-- Every letter of the word lies on some side. -/
def inBox (gs : List Word) (w : Word) : Bool :=
  w.all (fun c => gs.any (fun g => c ∈ g))

/-- A box-valid word in the sense of the specification: a dictionary word
(reaching a terminal trie node), at least three letters long, drawn from
the box's letters with no two consecutive letters on a common side. -/
def specBoxValid (dictionary : Trie) (gs : List Word) (w : Word) : Bool :=
  decide (3 ≤ w.length) && inBox gs w && adjOk gs w && completedAt dictionary w

/-- The letter-chaining condition: `w2` starts with `w1`'s last letter. -/
def chainStepOk (w1 w2 : Word) : Bool :=
  decide (w2.head? = w1.getLast?)

/-- The chain's three words together cover every letter of every side. -/
def coversBox (gs : List Word) (w1 w2 w3 : Word) : Bool :=
  gs.all (fun g => g.all (fun c => c ∈ w1 || c ∈ w2 || c ∈ w3))

/-- A solution chain in the sense of the specification: three pairwise
distinct box-valid words, chained by last letters, covering the box. -/
def specSolution (dictionary : Trie) (gs : List Word) : Word × Word × Word → Bool
  | (w1, w2, w3) =>
      specBoxValid dictionary gs w1 && specBoxValid dictionary gs w2 &&
      specBoxValid dictionary gs w3 &&
      chainStepOk w1 w2 && chainStepOk w2 w3 &&
      decide (w1 ≠ w2) && decide (w1 ≠ w3) && decide (w2 ≠ w3) &&
      coversBox gs w1 w2 w3

/-- The solution chains, enumerated without repetition: all triples of
box-valid words (a duplicate-free list), filtered by `specSolution`. -/
def chainList (dictionary : Trie) (gs : List Word) : List (Word × Word × Word) :=
  let vs := validWords dictionary gs
  (vs.flatMap (fun w1 => vs.flatMap (fun w2 => vs.map (fun w3 => (w1, w2, w3))))).filter
    (specSolution dictionary gs)

/-- A well-formed box layout: four sides of three letters each, the twelve
letters pairwise distinct. -/
def boxWF (gs : List Word) : Prop :=
  gs.length = 4 ∧ (∀ g ∈ gs, g.length = 3) ∧ gs.flatten.Nodup

/-- The invariant `validWordHelper` maintains for its accumulator: the
letters accumulated so far are box-adjacent, and the side of the last
accumulated letter, if any, is the forbidden one. -/
def seedInv (gs : List Word) (letters : Word) (last : Int) : Prop :=
  adjOk gs letters = true ∧
  ∀ c, letters.getLast? = some c →
    ∀ (i : Nat) (g : Word), gs[i]? = some g → c ∈ g → (i : Int) = last

/-! Concrete fixtures used by witnesses and counterexamples. -/

/-- A well-formed box layout: sides ABC, DEF, GHI, JKL. -/
def boxStd : List Word := [['A', 'B', 'C'], ['D', 'E', 'F'], ['G', 'H', 'I'], ['J', 'K', 'L']]

/-- The dictionary {AB}. -/
def trieAB : Trie := buildTrie [['A', 'B']]

/-- The dictionary {CATS, CAT}, in that order. -/
def trieCats : Trie := buildTrie [['C', 'A', 'T', 'S'], ['C', 'A', 'T']]

/-- The dictionary {ADG}. -/
def trieADG : Trie := buildTrie [['A', 'D', 'G']]

/-- The dictionary {ADG, GJA}. -/
def trieTwo : Trie := buildTrie [['A', 'D', 'G'], ['G', 'J', 'A']]

/-- The empty dictionary. -/
def trieEmpty : Trie := buildTrie []

/-! C3: `isWordValid` checks only that the path exists. -/

theorem isWordValid_eq_isSome (t : Trie) (w : Word) :
    isWordValid t w = (t.find w).isSome := by
  induction w generalizing t with
  | nil => rfl
  | cons c rest ih =>
      rw [isWordValid, Trie.find]
      cases lookupChild t.children c with
      | none => rfl
      | some next => exact ih next

/-- C3, counterexample: on the dictionary {AB}, `isWordValid` accepts the
word A although the node reached by A is not marked complete, refuting the
claim that `isWordValid` returns true iff the walk ends on a terminal node. -/
theorem c3_counterexample :
    ¬ (isWordValid trieAB ['A'] = true ↔ completedAt trieAB ['A'] = true) := by
  decide

/-- C3, amended: `isWordValid` returns true iff following the word's
letters from the root reaches an existing node, terminal or not. -/
theorem c3_amended (t : Trie) (w : Word) :
    isWordValid t w = true ↔ ∃ n, t.find w = some n := by
  rw [isWordValid_eq_isSome, Option.isSome_iff_exists]

/-! C4: `loadWords` only sets `complete` when it creates a node, so a word
inserted after one of its extensions is never marked terminal. -/

theorem trieCats_eq :
    trieCats = Trie.node false
      [('C', Trie.node false
        [('A', Trie.node false
          [('T', Trie.node false
            [('S', Trie.node true [])])])])] := by
  simp [trieCats, buildTrie, filteredChars, wordUpper, charUpper, trieInsert,
        trieInsert.updateChild, lookupChild]

/-- C4: building the trie from the source CATS, CAT leaves the node reached
by CAT unmarked (because its nodes already exist when CAT is inserted), so
`allValidWords` of the empty prefix returns only CATS, not the full set of
accepted words. -/
theorem c4_code_bug :
    allValidWords trieCats [] = [['C', 'A', 'T', 'S']] ∧
    completedAt trieCats ['C', 'A', 'T'] = false := by
  constructor
  · rw [trieCats_eq]
    simp [allValidWords, Trie.find, avwHelper, avwChildren, sortedChildren,
          Trie.children, Trie.complete, lookupChild, List.mergeSort]
  · rw [trieCats_eq]
    decide

/-! C6: `isGameComplete` analysis. -/

/-- Pure accumulation of one word's letters into the set, without the
early return of `igcChars`. -/
def insertAll (letters : List Char) (w : Word) : List Char :=
  w.foldl insLetter letters

theorem insLetter_length_le (letters : List Char) (c : Char) :
    letters.length ≤ (insLetter letters c).length ∧
    (insLetter letters c).length ≤ letters.length + 1 := by
  unfold insLetter
  split <;> simp

theorem insertAll_length_le (w : Word) (letters : List Char) :
    letters.length ≤ (insertAll letters w).length := by
  induction w generalizing letters with
  | nil => simp [insertAll]
  | cons c rest ih =>
      have h1 := (insLetter_length_le letters c).1
      have h2 := ih (insLetter letters c)
      simp only [insertAll, List.foldl_cons] at h2 ⊢
      omega

theorem igcChars_spec (w : Word) (letters : List Char) (h : letters.length < 12) :
    (12 ≤ (insertAll letters w).length ∧ (igcChars letters w).2 = true) ∨
    (igcChars letters w = (insertAll letters w, false) ∧ (insertAll letters w).length < 12) := by
  induction w generalizing letters with
  | nil => exact Or.inr ⟨rfl, by simpa [insertAll] using h⟩
  | cons c rest ih =>
      have hstep : insertAll letters (c :: rest) = insertAll (insLetter letters c) rest := by
        simp [insertAll]
      by_cases h12 : (insLetter letters c).length = 12
      · left
        constructor
        · rw [hstep]
          have := insertAll_length_le rest (insLetter letters c)
          omega
        · simp [igcChars, h12]
      · have hlt : (insLetter letters c).length < 12 := by
          have := (insLetter_length_le letters c).2
          omega
        have := ih (insLetter letters c) hlt
        rw [hstep]
        simpa [igcChars, h12] using this

theorem insertAllWords_length_le (ws : List Word) (letters : List Char) :
    letters.length ≤ (ws.foldl insertAll letters).length := by
  induction ws generalizing letters with
  | nil => simp
  | cons w ws ih =>
      have h1 := insertAll_length_le w letters
      have h2 := ih (insertAll letters w)
      simp only [List.foldl_cons] at h2 ⊢
      omega

theorem igcWords_spec (ws : List Word) (letters : List Char) (h : letters.length < 12) :
    (igcWords letters ws = true ↔ 12 ≤ (ws.foldl insertAll letters).length) := by
  induction ws generalizing letters with
  | nil =>
      simp only [igcWords, List.foldl_nil]
      constructor
      · intro hh
        simp at hh
        omega
      · intro hh
        omega
  | cons w ws ih =>
      have hstep : (w :: ws).foldl insertAll letters = ws.foldl insertAll (insertAll letters w) := by
        simp
      cases hpp : igcChars letters w with
      | mk l2 b =>
          rcases igcChars_spec w letters h with ⟨hge, htrue⟩ | ⟨heq, hlt⟩
          · rw [hpp] at htrue
            simp only at htrue
            subst htrue
            have hout : igcWords letters (w :: ws) = true := by
              simp [igcWords, hpp]
            rw [hout, hstep]
            have := insertAllWords_length_le ws (insertAll letters w)
            simp only [true_iff]
            omega
          · rw [hpp] at heq
            have hl2 : l2 = insertAll letters w := (Prod.mk.injEq _ _ _ _ ▸ heq).1
            have hb : b = false := (Prod.mk.injEq _ _ _ _ ▸ heq).2
            subst hl2
            subst hb
            have hout : igcWords letters (w :: ws) = igcWords (insertAll letters w) ws := by
              simp [igcWords, hpp]
            rw [hout, hstep]
            exact ih (insertAll letters w) hlt

theorem insLetter_toFinset (letters : List Char) (c : Char) :
    (insLetter letters c).toFinset = insert c letters.toFinset := by
  unfold insLetter
  split
  · rename_i hmem
    rw [Finset.insert_eq_self.mpr (List.mem_toFinset.mpr hmem)]
  · rw [List.toFinset_append, Finset.insert_eq, Finset.union_comm]
    rfl

theorem insLetter_nodup {letters : List Char} (h : letters.Nodup) (c : Char) :
    (insLetter letters c).Nodup := by
  unfold insLetter
  split
  · exact h
  · rename_i hmem
    simpa [List.nodup_append] using ⟨h, hmem⟩

theorem insertAll_toFinset (w : Word) (letters : List Char) :
    (insertAll letters w).toFinset = letters.toFinset ∪ w.toFinset := by
  induction w generalizing letters with
  | nil => simp [insertAll]
  | cons c rest ih =>
      have : insertAll letters (c :: rest) = insertAll (insLetter letters c) rest := by
        simp [insertAll]
      rw [this, ih, insLetter_toFinset]
      ext x
      simp [or_comm, or_left_comm]

theorem insertAll_nodup {letters : List Char} (h : letters.Nodup) (w : Word) :
    (insertAll letters w).Nodup := by
  induction w generalizing letters with
  | nil => exact h
  | cons c rest ih =>
      have : insertAll letters (c :: rest) = insertAll (insLetter letters c) rest := by
        simp [insertAll]
      rw [this]
      exact ih (insLetter_nodup h c)

theorem insertAllWords_toFinset (ws : List Word) (letters : List Char) :
    (ws.foldl insertAll letters).toFinset = letters.toFinset ∪ ws.flatten.toFinset := by
  induction ws generalizing letters with
  | nil => simp
  | cons w ws ih =>
      simp only [List.foldl_cons, List.flatten_cons]
      rw [ih, insertAll_toFinset]
      ext x
      simp [or_comm, or_left_comm, or_assoc]

theorem insertAllWords_nodup {letters : List Char} (h : letters.Nodup) (ws : List Word) :
    (ws.foldl insertAll letters).Nodup := by
  induction ws generalizing letters with
  | nil => exact h
  | cons w ws ih =>
      simp only [List.foldl_cons]
      exact ih (insertAll_nodup h w)

/-- The behavior `isGameComplete` actually implements: true iff at least 12
distinct letters occur across the words. -/
theorem isGameComplete_iff_card (ws : List Word) :
    isGameComplete ws = true ↔ 12 ≤ ws.flatten.toFinset.card := by
  rw [isGameComplete, igcWords_spec ws [] (by simp)]
  have hnd : (ws.foldl insertAll []).Nodup := insertAllWords_nodup List.nodup_nil ws
  have hfin : (ws.foldl insertAll []).toFinset = ws.flatten.toFinset := by
    rw [insertAllWords_toFinset]
    simp
  rw [← List.toFinset_card_of_nodup hnd, hfin]

/-- C6, counterexample: on a single word with 13 distinct letters,
`isGameComplete` returns true although the set of distinct letters does
not have exactly 12 members (hence does not equal the box's 12 letters),
refuting the claimed equivalence. -/
theorem c6_counterexample :
    ¬ (isGameComplete [['A', 'B', 'C', 'D', 'E', 'F', 'G', 'H', 'I', 'J', 'K', 'L', 'M']] = true ↔
       ([['A', 'B', 'C', 'D', 'E', 'F', 'G', 'H', 'I', 'J', 'K', 'L', 'M']] :
         List Word).flatten.dedup.length = 12) := by
  decide

/-- C6, amended: `isGameComplete words` is true iff the set of distinct
letters occurring across the words has at least 12 members; for words
drawn from the box's 12 letters this is the same as covering the box. -/
theorem c6_amended (ws : List Word) :
    isGameComplete ws = true ↔ 12 ≤ ws.flatten.dedup.length := by
  rw [isGameComplete_iff_card, List.card_toFinset]

/-! C8: the `explore` state transitions. -/

/-- C8: `explore` returns the empty prefix for `.reset`, the unchanged
prefix for `.valid`, and for any other token extends the uppercased prefix
when the path exists and has children, reports an error leaving the prefix
unchanged when the path is missing, and resets to empty on a dead end. -/
theorem c8_explore (t : Trie) (token pre : Word)
    (h1 : token ≠ dotReset) (h2 : token ≠ dotValid) :
    explore t dotReset pre = ([], false) ∧
    explore t dotValid pre = (pre, false) ∧
    (t.find (wordUpper (pre ++ token)) = none → explore t token pre = (pre, true)) ∧
    (∀ n, t.find (wordUpper (pre ++ token)) = some n →
      (n.children.isEmpty = true → explore t token pre = ([], false)) ∧
      (n.children.isEmpty = false →
        explore t token pre = (wordUpper (pre ++ token), false))) := by
  refine ⟨by simp [explore], by simp [explore, dotReset, dotValid], ?_, ?_⟩
  · intro hfind
    simp [explore, h1, h2, hfind]
  · intro n hfind
    constructor
    · intro hemp
      simp [explore, h1, h2, hfind, hemp]
    · intro hemp
      simp [explore, h1, h2, hfind, hemp]

/-- C8, witness: on the dictionary {AB}, the token x extends the empty
prefix to the nonexistent path X, so `explore` errors and keeps the prefix. -/
theorem c8_explore_witness : explore trieAB ['x'] [] = ([], true) :=
  (c8_explore trieAB ['x'] [] (by decide) (by decide)).2.2.1 (by rfl)

/-! C5 and C9: how `validWordsStartingWith` ends for bad single letters. -/

theorem containsSub_singleton (g : Word) (c : Char) :
    containsSub g [c] = true ↔ c ∈ g := by
  induction g with
  | nil => simp [containsSub, startsWith]
  | cons a rest ih =>
      rw [containsSub]
      simp only [Bool.or_eq_true, ih, List.mem_cons]
      rw [startsWith]
      simp [startsWith, eq_comm]

theorem findActiveGroup_none_iff (gs : List Word) (pre : Word) (i : Nat) :
    findActiveGroup gs pre i = none ↔ ∀ g ∈ gs, containsSub g pre = false := by
  induction gs generalizing i with
  | nil => simp [findActiveGroup]
  | cons g rest ih =>
      rw [findActiveGroup]
      by_cases hc : containsSub g pre
      · simp [hc]
      · simp only [Bool.not_eq_true] at hc
        simp [hc, ih]

/-- C5, counterexample: the letter Z is in no side of the standard box, and
the call ends in `.fatal` — the `log.Fatalf` process exit — rather than
returning a reportable error value to the caller, refuting the claim. -/
theorem c5_counterexample :
    validWordsStartingWith trieAB boxStd ['Z'] = SWResult.fatal := by
  decide

/-- C5, amended: for a single letter in no configured side,
`validWordsStartingWith` terminates the whole process through `log.Fatalf`
(modeled `.fatal`); the condition is logged but not returned as an error
value. -/
theorem c5_amended (dictionary : Trie) (gs : List Word) (c : Char)
    (h : ∀ g ∈ gs, c ∉ g) :
    validWordsStartingWith dictionary gs [c] = SWResult.fatal := by
  rw [validWordsStartingWith]
  have hnone : findActiveGroup gs [c] 0 = none := by
    rw [findActiveGroup_none_iff]
    intro g hg
    have := h g hg
    rw [← Bool.not_eq_true, containsSub_singleton]
    exact this
  rw [hnone]

/-- C5, witness for the amended statement. -/
theorem c5_amended_witness :
    validWordsStartingWith trieEmpty boxStd ['Z'] = SWResult.fatal :=
  c5_amended trieEmpty boxStd 'Z' (by decide)

/-- C9: the letter A lies on a side of the standard box, yet the trie root
of the empty dictionary has no child for it; the Go code then passes the
nil `dictionary.children[ch]` to `validWordHelper`, which dereferences it
(`currTrie.children[ch]`) on the first letter it scans — a nil-pointer
panic, modeled `.crash`.  The error branch is reachable even though the
letter belongs to a side. -/
theorem c9_nil_deref :
    (∃ g ∈ boxStd, 'A' ∈ g) ∧
    lookupChild trieEmpty.children 'A' = none ∧
    validWordsStartingWith trieEmpty boxStd ['A'] = SWResult.crash := by
  exact ⟨by decide, by rfl, by rfl⟩

/-! Membership characterization of the `validWordHelper` recursion. -/

theorem mem_vwChars_iff {t : Trie} {letters : Word} {gs : List Word} {i : Nat}
    {chars : Word} {w : Word} :
    w ∈ vwChars t letters gs i chars ↔
    ∃ ch ∈ chars, ∃ next, lookupChild t.children ch = some next ∧
      ((w = letters ++ [ch] ∧ next.complete = true ∧ 2 ≤ letters.length) ∨
        w ∈ validWordHelper next (letters ++ [ch]) gs (i : Int)) := by
  induction chars with
  | nil => simp [vwChars]
  | cons ch rest ih =>
      rw [vwChars]
      cases hl : lookupChild t.children ch with
      | none =>
          simp only [List.nil_append, ih, List.mem_cons]
          constructor
          · rintro ⟨c2, hc2, rest2⟩
            exact ⟨c2, Or.inr hc2, rest2⟩
          · rintro ⟨c2, hc2 | hc2, next, hnext, hrest⟩
            · subst hc2
              rw [hl] at hnext
              cases hnext
            · exact ⟨c2, hc2, next, hnext, hrest⟩
      | some next =>
          simp only [List.mem_append, ih, List.mem_cons]
          constructor
          · rintro ((hw1 | hw2) | ⟨c2, hc2, rest2⟩)
            · refine ⟨ch, Or.inl rfl, next, hl, Or.inl ?_⟩
              by_cases hcond : next.complete = true ∧ 2 ≤ letters.length
              · simp only [if_pos hcond, List.mem_singleton] at hw1
                exact ⟨hw1, hcond⟩
              · simp [if_neg hcond] at hw1
            · exact ⟨ch, Or.inl rfl, next, hl, Or.inr hw2⟩
            · exact ⟨c2, Or.inr hc2, rest2⟩
          · rintro ⟨c2, hc2 | hc2, next2, hnext2, hrest2⟩
            · subst hc2
              rw [hl] at hnext2
              injection hnext2 with hn
              subst hn
              left
              rcases hrest2 with ⟨hw, hcpl, hlen⟩ | hw
              · exact Or.inl (by simp [if_pos (And.intro hcpl hlen), hw])
              · exact Or.inr hw
            · exact Or.inr ⟨c2, hc2, next2, hnext2, hrest2⟩

theorem mem_vwGroups_iff {t : Trie} {letters : Word} {gs : List Word} {last : Int}
    {i : Nat} {rem : List Word} {w : Word} :
    w ∈ vwGroups t letters gs last i rem ↔
    ∃ (j : Nat) (g : Word), rem[j]? = some g ∧ ((i + j : Nat) : Int) ≠ last ∧
      w ∈ vwChars t letters gs (i + j) g := by
  induction rem generalizing i with
  | nil => simp [vwGroups]
  | cons g rest ih =>
      rw [vwGroups]
      simp only [List.mem_append]
      constructor
      · rintro (hw | hw)
        · by_cases hcur : (i : Int) = last
          · rw [if_pos hcur] at hw
            cases hw
          · rw [if_neg hcur] at hw
            exact ⟨0, g, by simp, by simpa using hcur, by simpa using hw⟩
        · obtain ⟨j, g2, hg, hne, hw2⟩ := (@ih (i + 1)).1 hw
          refine ⟨j + 1, g2, by simpa using hg, ?_, ?_⟩
          · rw [show i + (j + 1) = (i + 1) + j by omega]
            exact hne
          · rw [show i + (j + 1) = (i + 1) + j by omega]
            exact hw2
      · rintro ⟨j, g2, hg, hne, hw2⟩
        cases j with
        | zero =>
            simp only [List.getElem?_cons_zero, Option.some.injEq] at hg
            subst hg
            simp only [Nat.add_zero] at hne hw2
            left
            rw [if_neg hne]
            exact hw2
        | succ j2 =>
            right
            refine (@ih (i + 1)).2 ⟨j2, g2, by simpa using hg, ?_, ?_⟩
            · rw [show (i + 1) + j2 = i + (j2 + 1) by omega]
              exact hne
            · rw [show (i + 1) + j2 = i + (j2 + 1) by omega]
              exact hw2

theorem mem_validWordHelper_iff {t : Trie} {letters : Word} {gs : List Word}
    {last : Int} {w : Word} :
    w ∈ validWordHelper t letters gs last ↔
    ∃ (j : Nat) (g : Word), gs[j]? = some g ∧ (j : Int) ≠ last ∧
      ∃ ch ∈ g, ∃ next, lookupChild t.children ch = some next ∧
        ((w = letters ++ [ch] ∧ next.complete = true ∧ 2 ≤ letters.length) ∨
          w ∈ validWordHelper next (letters ++ [ch]) gs (j : Int)) := by
  rw [validWordHelper, mem_vwGroups_iff]
  simp only [Nat.zero_add, mem_vwChars_iff]

/-! Side sequences: the shape of the suffixes `validWordHelper` builds. -/

/-- A word whose letters are drawn from the configured sides so that each
letter's side differs from the previous one (the first differing from
`last`). -/
inductive SideSeq (gs : List Word) : Int → Word → Prop where
  | nil (last : Int) : SideSeq gs last []
  | cons {last : Int} {j : Nat} {g : Word} {c : Char} {rest : Word}
      (hg : gs[j]? = some g) (hc : c ∈ g) (hne : (j : Int) ≠ last)
      (htail : SideSeq gs (j : Int) rest) : SideSeq gs last (c :: rest)

theorem completedAt_cons (t : Trie) (c : Char) (rest : Word) :
    completedAt t (c :: rest) =
      match lookupChild t.children c with
      | none => false
      | some next => completedAt next rest := by
  cases hl : lookupChild t.children c <;> simp [completedAt, Trie.find, hl]

theorem trie_sizeOf_pos (t : Trie) : 0 < sizeOf t := by
  cases t
  simp only [Trie.node.sizeOf_spec]
  omega

theorem vwh_sound_aux (gs : List Word) :
    ∀ (n : Nat) (t : Trie), sizeOf t ≤ n →
      ∀ (letters : Word) (last : Int) (w : Word),
        w ∈ validWordHelper t letters gs last →
        ∃ suf, w = letters ++ suf ∧ suf ≠ [] ∧ completedAt t suf = true ∧
          3 ≤ letters.length + suf.length ∧ SideSeq gs last suf := by
  intro n
  induction n with
  | zero =>
      intro t ht
      exact absurd ht (by have := trie_sizeOf_pos t; omega)
  | succ n ih =>
      intro t ht letters last w hw
      rw [mem_validWordHelper_iff] at hw
      obtain ⟨j, g, hg, hne, ch, hch, next, hnext, hcase⟩ := hw
      rcases hcase with ⟨hw, hcpl, hlen⟩ | hw
      · refine ⟨[ch], hw, by simp, ?_, by simp; omega, ?_⟩
        · rw [completedAt_cons, hnext]
          simpa [completedAt] using hcpl
        · exact SideSeq.cons hg hch hne (SideSeq.nil _)
      · have hsize : sizeOf next ≤ n := by
          have := sizeOf_child_lt hnext
          omega
        obtain ⟨suf2, hw2, hne2, hcpl2, hlen2, hss2⟩ :=
          ih next hsize (letters ++ [ch]) (j : Int) w hw
        refine ⟨ch :: suf2, ?_, by simp, ?_, ?_, ?_⟩
        · rw [hw2]
          simp
        · rw [completedAt_cons, hnext]
          exact hcpl2
        · simp only [List.length_append, List.length_singleton] at hlen2
          simp only [List.length_cons]
          omega
        · exact SideSeq.cons hg hch hne hss2

/-- Soundness of the `validWordHelper` recursion: every produced word
extends the accumulator by a nonempty suffix that reaches a complete node,
has at least three letters in total, and whose letters form a side
sequence avoiding the forbidden side first. -/
theorem vwh_sound {gs : List Word} {t : Trie} {letters : Word} {last : Int} {w : Word}
    (hw : w ∈ validWordHelper t letters gs last) :
    ∃ suf, w = letters ++ suf ∧ suf ≠ [] ∧ completedAt t suf = true ∧
      3 ≤ letters.length + suf.length ∧ SideSeq gs last suf :=
  vwh_sound_aux gs (sizeOf t) t (Nat.le_refl _) letters last w hw

/-- Completeness of the `validWordHelper` recursion: every word of the
described shape is produced. -/
theorem vwh_complete {gs : List Word} :
    ∀ (suf : Word) (t : Trie) (letters : Word) (last : Int),
      suf ≠ [] → completedAt t suf = true → 3 ≤ letters.length + suf.length →
      SideSeq gs last suf → letters ++ suf ∈ validWordHelper t letters gs last := by
  intro suf
  induction suf with
  | nil => intro t letters last hne; exact absurd rfl hne
  | cons c rest ih =>
      intro t letters last _ hcpl hlen hss
      cases hss with
      | cons hg hc hne htail =>
          rename_i j g
          rw [completedAt_cons] at hcpl
          cases hnext : lookupChild t.children c with
          | none => rw [hnext] at hcpl; cases hcpl
          | some next =>
              rw [hnext] at hcpl
              rw [mem_validWordHelper_iff]
              refine ⟨j, g, hg, hne, c, hc, next, hnext, ?_⟩
              cases rest with
              | nil =>
                  left
                  refine ⟨rfl, by simpa [completedAt] using hcpl, ?_⟩
                  simp only [List.length_cons, List.length_nil] at hlen
                  omega
              | cons r rs =>
                  right
                  have := ih next (letters ++ [c]) (j : Int) (by simp) hcpl
                    (by simp only [List.length_append, List.length_singleton,
                          List.length_cons] at hlen ⊢; omega) htail
                  simpa using this

/-! Adjacency consequences of side sequences. -/

theorem groupIdx_unique {gs : List Word} (hnd : gs.flatten.Nodup) :
    ∀ {i j : Nat} {gi gj : Word} {c : Char},
      gs[i]? = some gi → gs[j]? = some gj → c ∈ gi → c ∈ gj → i = j := by
  induction gs with
  | nil => intro i j gi gj c hi; simp at hi
  | cons g rest ih =>
      intro i j gi gj c hi hj hci hcj
      rw [List.flatten_cons, List.nodup_append] at hnd
      obtain ⟨-, hndr, hdisj⟩ := hnd
      cases i with
      | zero =>
          simp only [List.getElem?_cons_zero, Option.some.injEq] at hi
          subst hi
          cases j with
          | zero => rfl
          | succ j2 =>
              simp only [List.getElem?_cons_succ] at hj
              have hgj : gj ∈ rest := List.mem_iff_getElem?.mpr ⟨j2, hj⟩
              have : c ∈ rest.flatten := List.mem_flatten.mpr ⟨gj, hgj, hcj⟩
              exact absurd this (hdisj hci)
      | succ i2 =>
          simp only [List.getElem?_cons_succ] at hi
          cases j with
          | zero =>
              simp only [List.getElem?_cons_zero, Option.some.injEq] at hj
              subst hj
              have hgi : gi ∈ rest := List.mem_iff_getElem?.mpr ⟨i2, hi⟩
              have : c ∈ rest.flatten := List.mem_flatten.mpr ⟨gi, hgi, hci⟩
              exact absurd this (hdisj hcj)
          | succ j2 =>
              simp only [List.getElem?_cons_succ] at hj
              have := ih hndr hi hj hci hcj
              omega

theorem sameSide_iff {gs : List Word} {a b : Char} :
    sameSide gs a b = true ↔ ∃ g ∈ gs, a ∈ g ∧ b ∈ g := by
  simp [sameSide]

theorem sideSeq_inBox {gs : List Word} :
    ∀ {last : Int} {suf : Word}, SideSeq gs last suf → inBox gs suf = true := by
  intro last suf hss
  induction hss with
  | nil => simp [inBox]
  | @cons last2 j g c rest hg hc hne htail ih =>
      have hgmem : g ∈ gs := List.mem_iff_getElem?.mpr ⟨j, hg⟩
      simp only [inBox, List.all_cons, Bool.and_eq_true, List.any_eq_true]
      exact ⟨⟨g, hgmem, by simpa using hc⟩, by simpa [inBox] using ih⟩

theorem sideSeq_adjOk {gs : List Word} (hnd : gs.flatten.Nodup) :
    ∀ {last : Int} {suf : Word}, SideSeq gs last suf → adjOk gs suf = true := by
  intro last suf hss
  induction hss with
  | nil => simp [adjOk]
  | @cons last2 j g c rest hg hc hne htail ih =>
      cases htail with
      | nil => simp [adjOk]
      | cons hg2 hc2 hne2 htail2 =>
          rename_i j2 g2 c2 rest2
          rw [adjOk, Bool.and_eq_true, Bool.not_eq_eq_eq_not, Bool.not_true]
          refine ⟨?_, ih⟩
          by_contra hs
          rw [Bool.not_eq_false, sameSide_iff] at hs
          obtain ⟨gm, hgm, hcm, hc2m⟩ := hs
          obtain ⟨m, hm⟩ := List.mem_iff_getElem?.mp hgm
          have h1 : j = m := groupIdx_unique hnd hg hm hc hcm
          subst h1
          have h2 : j2 = j := groupIdx_unique hnd hg2 hm hc2 hc2m
          exact hne2 (by rw [h2])

theorem adjOk_append (gs : List Word) :
    ∀ (xs ys : Word),
      adjOk gs (xs ++ ys) = true ↔
      adjOk gs xs = true ∧ adjOk gs ys = true ∧
        (∀ a b, xs.getLast? = some a → ys.head? = some b → sameSide gs a b = false) := by
  intro xs
  induction xs with
  | nil => simp [adjOk]
  | cons a xs2 ih =>
      intro ys
      cases xs2 with
      | nil =>
          cases ys with
          | nil => simp [adjOk]
          | cons b ys2 =>
              simp only [List.singleton_append, adjOk, Bool.and_eq_true,
                List.getLast?_singleton, List.head?_cons, Option.some.injEq]
              constructor
              · rintro ⟨hs, hadj⟩
                refine ⟨trivial, hadj, ?_⟩
                intro a2 b2 ha2 hb2
                subst ha2
                subst hb2
                simpa using hs
              · rintro ⟨-, hadj, hjunc⟩
                exact ⟨by simpa using hjunc a b rfl rfl, hadj⟩
      | cons x xs3 =>
          have hstep : adjOk gs ((a :: x :: xs3) ++ ys) =
              (!sameSide gs a x && adjOk gs ((x :: xs3) ++ ys)) := rfl
          have hstep2 : adjOk gs (a :: x :: xs3) =
              (!sameSide gs a x && adjOk gs (x :: xs3)) := rfl
          rw [hstep, hstep2, Bool.and_eq_true, Bool.and_eq_true, ih ys]
          simp only [List.getLast?_cons_cons]
          tauto
/-! Concrete evaluations of the search on the {ADG} fixture. -/

theorem boxWF_boxStd : boxWF boxStd :=
  ⟨rfl, by decide, by decide⟩

theorem trieADG_eq :
    trieADG = Trie.node false
      [('A', Trie.node false [('D', Trie.node false [('G', Trie.node true [])])])] := by
  simp [trieADG, buildTrie, filteredChars, wordUpper, charUpper, trieInsert,
        trieInsert.updateChild, lookupChild]

theorem validWords_trieADG : validWords trieADG boxStd = [['A', 'D', 'G']] := by
  rw [trieADG_eq]
  simp [boxStd, validWords, validWordHelper, vwGroups, vwChars, lookupChild,
        Trie.children, Trie.complete]

/-! C2: words produced by the recursion are box-adjacent, complete in the
trie, and recorded only past the two-letter accumulator guard. -/

/-- C2: under a well-formed box layout and the accumulator invariant, every
word in the list returned by `validWordHelper` has no two consecutive
letters on a common side, has at least three letters (the record guard
requires an accumulator of length at least two), and extends the
accumulator by a nonempty suffix whose walk from the current node ends on
a node marked complete. -/
theorem c2_constraint (dictionary : Trie) (gs : List Word) (letters : Word)
    (last : Int) (w : Word)
    (hbox : boxWF gs) (hseed : seedInv gs letters last)
    (hw : w ∈ validWordHelper dictionary letters gs last) :
    adjOk gs w = true ∧ 3 ≤ w.length ∧
    ∃ suf, suf ≠ [] ∧ w = letters ++ suf ∧ completedAt dictionary suf = true := by
  obtain ⟨hadjL, hlastSide⟩ := hseed
  have hnd := hbox.2.2
  obtain ⟨suf, hweq, hsne, hcpl, hlen, hss⟩ := vwh_sound hw
  subst hweq
  refine ⟨?_, ?_, suf, hsne, rfl, hcpl⟩
  · rw [adjOk_append]
    refine ⟨hadjL, sideSeq_adjOk hnd hss, ?_⟩
    intro a b ha hb
    cases hss with
    | nil => exact absurd rfl hsne
    | @cons last2 j g c rest hg hc hne htail =>
        simp only [List.head?_cons, Option.some.injEq] at hb
        subst hb
        by_contra hsame
        rw [← ne_eq, Bool.ne_false_iff, sameSide_iff] at hsame
        obtain ⟨gm, hgm, ham, hbm⟩ := hsame
        obtain ⟨m, hm⟩ := List.mem_iff_getElem?.mp hgm
        have hmlast : (m : Int) = last := hlastSide a ha m gm hm ham
        have hjm : j = m := groupIdx_unique hnd hg hm hc hbm
        exact hne (by rw [hjm, hmlast])
  · rw [List.length_append]
    omega

/-- C2, witness: the word ADG produced from the {ADG} dictionary on the
standard box, starting from the empty accumulator with no forbidden side. -/
theorem c2_constraint_witness :
    adjOk boxStd ['A', 'D', 'G'] = true ∧ 3 ≤ (['A', 'D', 'G'] : Word).length ∧
    ∃ suf, suf ≠ [] ∧ (['A', 'D', 'G'] : Word) = [] ++ suf ∧
      completedAt trieADG suf = true := by
  refine c2_constraint trieADG boxStd [] (-1) ['A', 'D', 'G'] boxWF_boxStd
    ⟨rfl, ?_⟩ ?_
  · intro c hc
    simp at hc
  · have := validWords_trieADG
    rw [validWords] at this
    rw [this]
    simp

/-! C10: every produced word has at least three letters. -/

/-- C10: every word returned by `validWords`, or by
`validWordsStartingWith` on a single-letter prefix when it returns
normally, has length at least 3; in particular one- and two-letter
dictionary words are never produced. -/
theorem c10_min_length (dictionary : Trie) (gs : List Word) (w : Word)
    (c : Char) (ws : List Word)
    (h : w ∈ validWords dictionary gs ∨
         (validWordsStartingWith dictionary gs [c] = SWResult.ok ws ∧ w ∈ ws)) :
    3 ≤ w.length := by
  rcases h with hw | ⟨hok, hw⟩
  · rw [validWords] at hw
    obtain ⟨suf, hweq, -, -, hlen, -⟩ := vwh_sound hw
    subst hweq
    simpa using hlen
  · rw [validWordsStartingWith] at hok
    cases hfag : findActiveGroup gs [c] 0 with
    | none => rw [hfag] at hok; cases hok
    | some j =>
        rw [hfag] at hok
        cases hlc : lookupChild dictionary.children c with
        | none => rw [hlc] at hok; cases hok
        | some child =>
            rw [hlc] at hok
            injection hok with hws
            rw [← hws] at hw
            obtain ⟨suf, hweq, -, -, hlen, -⟩ := vwh_sound hw
            subst hweq
            simp only [List.length_singleton] at hlen
            simp only [List.singleton_append, List.length_cons]
            omega

/-- C10, witness: the three-letter word ADG of the {ADG} dictionary. -/
theorem c10_min_length_witness : 3 ≤ (['A', 'D', 'G'] : Word).length :=
  c10_min_length trieADG boxStd ['A', 'D', 'G'] 'A' []
    (Or.inl (by rw [validWords_trieADG]; simp))

/-! C7: the outer summation is invariant under permutation. -/

theorem sumOuter_perm (f : Word → Option Nat) {l1 l2 : List Word} (h : l1.Perm l2) :
    sumOuter f l1 = sumOuter f l2 := by
  induction h with
  | nil => rfl
  | cons x _ ih => rw [sumOuter, sumOuter, ih]
  | swap x y l =>
      cases hx : f x <;> cases hy : f y <;>
        simp only [sumOuter, hx, hy, Option.map_none, Option.map_some] <;>
        cases hs : sumOuter f l <;> simp [hs] <;> omega
  | trans _ _ ih1 ih2 => rw [ih1, ih2]

/-- C7: the count returned by `numberOfSolutions` does not depend on the
order in which the box-valid candidate words drive the outer loop: any
permutation of the candidate list produces the value of the actual
(rank-sorted) run, so the Ranking sort affects enumeration order only. -/
theorem c7_order_independent (dictionary : Trie) (gs : List Word) (l : List Word)
    (h : l.Perm (validWords dictionary gs)) :
    sumOuter (fun w => nosHelper dictionary gs [w]) l =
      numberOfSolutions dictionary gs := by
  rw [numberOfSolutions, rankSort]
  exact sumOuter_perm _
    (h.trans (List.mergeSort_perm (validWords dictionary gs) _).symm)

/-- C7, witness: the unsorted candidate list of the {ADG} fixture. -/
theorem c7_order_independent_witness :
    sumOuter (fun w => nosHelper trieADG boxStd [w]) (validWords trieADG boxStd) =
      numberOfSolutions trieADG boxStd :=
  c7_order_independent trieADG boxStd _ (List.Perm.refl _)

/-! C1, step 1: `validWords` produces exactly the box-valid words. -/

theorem sideSeq_of_spec {gs : List Word} :
    ∀ (w : Word) (last : Int),
      inBox gs w = true → adjOk gs w = true →
      (∀ c0, w.head? = some c0 →
        ∀ (j : Nat) (g : Word), gs[j]? = some g → c0 ∈ g → (j : Int) ≠ last) →
      SideSeq gs last w := by
  intro w
  induction w with
  | nil => exact fun last _ _ _ => SideSeq.nil last
  | cons c rest ih =>
      intro last hib hadj hhead
      have hc : ∃ g ∈ gs, c ∈ g := by
        have := hib
        simp only [inBox, List.all_cons, Bool.and_eq_true, List.any_eq_true,
          decide_eq_true_eq] at this
        exact this.1
      obtain ⟨g, hgmem, hcg⟩ := hc
      obtain ⟨j, hj⟩ := List.mem_iff_getElem?.mp hgmem
      refine SideSeq.cons hj hcg (hhead c rfl j g hj hcg) (ih (j : Int) ?_ ?_ ?_)
      · simp only [inBox, List.all_cons, Bool.and_eq_true] at hib
        exact hib.2
      · cases rest with
        | nil => rfl
        | cons c2 rs =>
            rw [adjOk, Bool.and_eq_true] at hadj
            exact hadj.2
      · intro c2 hc2 k gk hk hc2k
        cases rest with
        | nil => cases hc2
        | cons c3 rs =>
            simp only [List.head?_cons, Option.some.injEq] at hc2
            simp only [adjOk, Bool.and_eq_true, Bool.not_eq_true] at hadj
            obtain ⟨hadj1, -⟩ := hadj
            intro hkj
            have hkj2 : k = j := by omega
            subst hkj2
            rw [hj] at hk
            injection hk with hkk
            have hc3g : c3 ∈ g := by
              rw [hc2, hkk]
              exact hc2k
            have hss : sameSide gs c c3 = true :=
              sameSide_iff.mpr ⟨g, hgmem, hcg, hc3g⟩
            rw [hss] at hadj1
            exact absurd hadj1 (by simp)

theorem specBoxValid_iff {dictionary : Trie} {gs : List Word} {w : Word} :
    specBoxValid dictionary gs w = true ↔
    3 ≤ w.length ∧ inBox gs w = true ∧ adjOk gs w = true ∧
      completedAt dictionary w = true := by
  simp [specBoxValid, and_assoc]

/-- The crown equivalence for C1: membership in `validWords` is exactly
spec-side box-validity. -/
theorem mem_validWords_iff {dictionary : Trie} {gs : List Word}
    (hnd : gs.flatten.Nodup) (w : Word) :
    w ∈ validWords dictionary gs ↔ specBoxValid dictionary gs w = true := by
  constructor
  · intro hw
    rw [validWords] at hw
    obtain ⟨suf, hweq, hsne, hcpl, hlen, hss⟩ := vwh_sound hw
    subst hweq
    rw [specBoxValid_iff]
    simp only [List.nil_append, List.length_nil] at hlen ⊢
    exact ⟨by omega, sideSeq_inBox hss, sideSeq_adjOk hnd hss, hcpl⟩
  · intro hspec
    rw [specBoxValid_iff] at hspec
    obtain ⟨hlen, hib, hadj, hcpl⟩ := hspec
    rw [validWords]
    have hss : SideSeq gs (-1) w := by
      refine sideSeq_of_spec w (-1) hib hadj ?_
      intro c0 _ j g _ _ heq
      omega
    have := vwh_complete w dictionary [] (-1)
      (by intro hnil; subst hnil; simp at hlen) hcpl (by simpa using hlen) hss
    simpa using this

/-! C1, step 2: the produced word lists have no duplicates. -/

theorem vwChars_shape {t : Trie} {letters : Word} {gs : List Word} {i : Nat}
    {chars : Word} {w : Word} (hw : w ∈ vwChars t letters gs i chars) :
    ∃ ch ∈ chars, ∃ suf, w = letters ++ ch :: suf := by
  rw [mem_vwChars_iff] at hw
  obtain ⟨ch, hch, next, -, hcase⟩ := hw
  rcases hcase with ⟨hw, -, -⟩ | hw
  · exact ⟨ch, hch, [], hw⟩
  · obtain ⟨suf, hweq, -, -, -, -⟩ := vwh_sound hw
    exact ⟨ch, hch, suf, by simpa using hweq⟩

theorem vwGroups_shape {t : Trie} {letters : Word} {gs : List Word} {last : Int}
    {i : Nat} {rem : List Word} {w : Word}
    (hw : w ∈ vwGroups t letters gs last i rem) :
    ∃ g ∈ rem, ∃ ch ∈ g, ∃ suf, w = letters ++ ch :: suf := by
  rw [mem_vwGroups_iff] at hw
  obtain ⟨j, g, hg, -, hw⟩ := hw
  obtain ⟨ch, hch, suf, hweq⟩ := vwChars_shape hw
  exact ⟨g, List.mem_iff_getElem?.mpr ⟨j, hg⟩, ch, hch, suf, hweq⟩

theorem vwh_nodup_aux (gs : List Word) (hnd : gs.flatten.Nodup) :
    ∀ (n : Nat) (t : Trie), sizeOf t ≤ n →
      ∀ (letters : Word) (last : Int),
        (validWordHelper t letters gs last).Nodup := by
  intro n
  induction n with
  | zero =>
      intro t ht
      exact absurd ht (by have := trie_sizeOf_pos t; omega)
  | succ n ih =>
      intro t ht letters last
      rw [validWordHelper]
      -- Nodup of vwChars for a duplicate-free character list.
      have hchars : ∀ (i : Nat) (chars : Word), chars.Nodup →
          (vwChars t letters gs i chars).Nodup := by
        intro i chars hcnd
        induction chars with
        | nil => simp [vwChars]
        | cons ch rest ihc =>
            rw [vwChars]
            rw [List.nodup_cons] at hcnd
            have hrest := ihc hcnd.2
            cases hl : lookupChild t.children ch with
            | none => simpa using hrest
            | some next =>
                have hnextsize : sizeOf next ≤ n := by
                  have := sizeOf_child_lt hl
                  omega
                have hvnd : (validWordHelper next (letters ++ [ch]) gs (i : Int)).Nodup :=
                  ih next hnextsize (letters ++ [ch]) (i : Int)
                have hbranch :
                    ((if next.complete = true ∧ 2 ≤ letters.length
                        then [letters ++ [ch]] else []) ++
                      validWordHelper next (letters ++ [ch]) gs (i : Int)).Nodup := by
                  split
                  · rw [List.nodup_append]
                    refine ⟨List.nodup_singleton _, hvnd, ?_⟩
                    intro x hx hx2
                    simp only [List.mem_singleton] at hx
                    subst hx
                    obtain ⟨suf, hweq, hsne, -, -, -⟩ := vwh_sound hx2
                    have := congrArg List.length hweq
                    simp only [List.length_append, List.length_singleton] at this
                    cases suf with
                    | nil => exact hsne rfl
                    | cons a b => simp at this
                  · simpa using hvnd
                rw [List.nodup_append]
                refine ⟨hbranch, hrest, ?_⟩
                intro x hx hx2
                rcases List.mem_append.mp hx with hx1 | hx1
                · have hxch : ∃ suf, x = letters ++ ch :: suf := by
                    split at hx1
                    · simp only [List.mem_singleton] at hx1
                      exact ⟨[], hx1⟩
                    · simp at hx1
                  obtain ⟨suf, hxeq⟩ := hxch
                  obtain ⟨ch2, hch2, suf2, hxeq2⟩ := vwChars_shape hx2
                  rw [hxeq] at hxeq2
                  have := List.append_cancel_left hxeq2
                  injection this with h1 h2
                  exact hcnd.1 (h1 ▸ hch2)
                · obtain ⟨suf, hxeq⟩ : ∃ suf, x = letters ++ ch :: suf := by
                    obtain ⟨suf2, hweq, hsne, -, -, -⟩ := vwh_sound hx1
                    exact ⟨suf2, by simpa using hweq⟩
                  obtain ⟨ch2, hch2, suf2, hxeq2⟩ := vwChars_shape hx2
                  rw [hxeq] at hxeq2
                  have := List.append_cancel_left hxeq2
                  injection this with h1 h2
                  exact hcnd.1 (h1 ▸ hch2)
      -- Nodup of vwGroups for a flatten-nodup remainder.
      have hgroups : ∀ (rem : List Word), rem.flatten.Nodup → ∀ (i : Nat),
          (vwGroups t letters gs last i rem).Nodup := by
        intro rem
        induction rem with
        | nil => intro _ i; simp [vwGroups]
        | cons g rest ihr =>
            intro hrnd i
            rw [vwGroups]
            rw [List.flatten_cons, List.nodup_append] at hrnd
            obtain ⟨hgnd, hrestnd, hdisj⟩ := hrnd
            have hrest := ihr hrestnd (i + 1)
            rw [List.nodup_append]
            refine ⟨?_, hrest, ?_⟩
            · split
              · exact List.nodup_nil
              · exact hchars i g hgnd
            · intro x hx hx2
              have hx1 : x ∈ vwChars t letters gs i g := by
                split at hx
                · cases hx
                · exact hx
              obtain ⟨ch, hch, suf, hxeq⟩ := vwChars_shape hx1
              obtain ⟨g2, hg2, ch2, hch2, suf2, hxeq2⟩ := vwGroups_shape hx2
              rw [hxeq] at hxeq2
              have := List.append_cancel_left hxeq2
              injection this with h1 h2
              refine hdisj hch ?_
              rw [h1]
              exact List.mem_flatten.mpr ⟨g2, hg2, hch2⟩
      exact hgroups gs hnd 0

/-- No duplicates in any `validWordHelper` result, in particular in
`validWords` and in the continuation lists. -/
theorem vwh_nodup {gs : List Word} (hnd : gs.flatten.Nodup) (t : Trie)
    (letters : Word) (last : Int) :
    (validWordHelper t letters gs last).Nodup :=
  vwh_nodup_aux gs hnd (sizeOf t) t (Nat.le_refl _) letters last

/-! C1, step 3: the continuation lists. -/

theorem findActiveGroup_shift (gs : List Word) (pre : Word) (i : Nat) :
    findActiveGroup gs pre i = (findActiveGroup gs pre 0).map (fun j => j + i) := by
  induction gs generalizing i with
  | nil => simp [findActiveGroup]
  | cons g rest ih =>
      by_cases hc : containsSub g pre = true
      · simp [findActiveGroup, hc]
      · rw [findActiveGroup, if_neg hc, ih (i + 1)]
        rw [show findActiveGroup (g :: rest) pre 0 = findActiveGroup rest pre 1 from by
          rw [findActiveGroup, if_neg hc]]
        rw [ih 1]
        cases findActiveGroup rest pre 0 with
        | none => rfl
        | some j => simp; omega

theorem findActiveGroup_some_of {gs : List Word} (hnd : gs.flatten.Nodup) :
    ∀ {j : Nat} {g : Word} {c : Char}, gs[j]? = some g → c ∈ g →
      findActiveGroup gs [c] 0 = some j := by
  induction gs with
  | nil => intro j g c hj; simp at hj
  | cons g0 rest ih =>
      intro j g c hj hc
      rw [List.flatten_cons, List.nodup_append] at hnd
      obtain ⟨-, hndr, hdisj⟩ := hnd
      cases j with
      | zero =>
          simp only [List.getElem?_cons_zero, Option.some.injEq] at hj
          subst hj
          rw [findActiveGroup, if_pos ((containsSub_singleton g0 c).mpr hc)]
      | succ j2 =>
          simp only [List.getElem?_cons_succ] at hj
          have hc0 : containsSub g0 [c] = false := by
            rw [← Bool.not_eq_true, containsSub_singleton]
            intro hcg0
            refine hdisj hcg0 ?_
            exact List.mem_flatten.mpr ⟨g, List.mem_iff_getElem?.mpr ⟨j2, hj⟩, hc⟩
          rw [findActiveGroup, if_neg (by simp [hc0]), findActiveGroup_shift,
            ih hndr hj hc]
          rfl

/-- The normal return of `validWordsStartingWith` on a single letter whose
side and root child exist. -/
theorem vwsw_ok {dictionary : Trie} {gs : List Word} (hnd : gs.flatten.Nodup)
    {j : Nat} {g : Word} {c : Char} {child : Trie}
    (hj : gs[j]? = some g) (hc : c ∈ g)
    (hchild : lookupChild dictionary.children c = some child) :
    validWordsStartingWith dictionary gs [c] =
      SWResult.ok (validWordHelper child [c] gs (j : Int)) := by
  rw [validWordsStartingWith, findActiveGroup_some_of hnd hj hc, hchild]

/-- Membership in the continuation list for a letter `c`: exactly the
box-valid words starting with `c`. -/
theorem mem_step_iff {dictionary : Trie} {gs : List Word} (hnd : gs.flatten.Nodup)
    {j : Nat} {g : Word} {c : Char} {child : Trie}
    (hj : gs[j]? = some g) (hc : c ∈ g)
    (hchild : lookupChild dictionary.children c = some child) (w : Word) :
    w ∈ validWordHelper child [c] gs (j : Int) ↔
      (specBoxValid dictionary gs w = true ∧ w.head? = some c) := by
  have hgmem : g ∈ gs := List.mem_iff_getElem?.mpr ⟨j, hj⟩
  constructor
  · intro hw
    obtain ⟨suf, hweq, hsne, hcpl, hlen, hss⟩ := vwh_sound hw
    subst hweq
    have hhead : (([c] : Word) ++ suf).head? = some c := rfl
    refine ⟨?_, hhead⟩
    rw [specBoxValid_iff]
    refine ⟨?_, ?_, ?_, ?_⟩
    · simp only [List.length_append, List.length_singleton] at hlen ⊢
      omega
    · simp only [inBox, List.singleton_append, List.all_cons, Bool.and_eq_true,
        List.any_eq_true, decide_eq_true_eq]
      refine ⟨⟨g, hgmem, hc⟩, ?_⟩
      have := sideSeq_inBox hss
      simpa [inBox] using this
    · rw [adjOk_append]
      refine ⟨rfl, sideSeq_adjOk hnd hss, ?_⟩
      intro a b ha hb
      simp only [List.getLast?_singleton, Option.some.injEq] at ha
      subst ha
      cases hss with
      | nil => exact absurd rfl hsne
      | @cons last2 k gk b2 rest hk hb2 hkne htail =>
          simp only [List.head?_cons, Option.some.injEq] at hb
          subst hb
          by_contra hsame
          rw [← ne_eq, Bool.ne_false_iff, sameSide_iff] at hsame
          obtain ⟨gm, hgm, ham, hbm⟩ := hsame
          obtain ⟨m, hm⟩ := List.mem_iff_getElem?.mp hgm
          have h1 : j = m := groupIdx_unique hnd hj hm hc ham
          have h2 : k = m := groupIdx_unique hnd hk hm hb2 hbm
          exact hkne (by omega)
    · rw [List.singleton_append, completedAt_cons, hchild]
      exact hcpl
  · rintro ⟨hspec, hhead⟩
    rw [specBoxValid_iff] at hspec
    obtain ⟨hlen, hib, hadj, hcpl⟩ := hspec
    cases w with
    | nil => cases hhead
    | cons c0 suf =>
        simp only [List.head?_cons, Option.some.injEq] at hhead
        subst hhead
        rw [completedAt_cons, hchild] at hcpl
        have hsne : suf ≠ [] := by
          intro hs
          subst hs
          simp at hlen
        have hss : SideSeq gs (j : Int) suf := by
          refine sideSeq_of_spec suf (j : Int) ?_ ?_ ?_
          · simp only [inBox, List.all_cons, Bool.and_eq_true] at hib
            exact hib.2
          · cases suf with
            | nil => rfl
            | cons c2 rs =>
                rw [adjOk, Bool.and_eq_true] at hadj
                exact hadj.2
          · intro c2 hc2 k gk hk hc2k
            cases suf with
            | nil => cases hc2
            | cons c3 rs =>
                simp only [List.head?_cons, Option.some.injEq] at hc2
                simp only [adjOk, Bool.and_eq_true, Bool.not_eq_true] at hadj
                obtain ⟨hadj1, -⟩ := hadj
                intro hkj
                have hkj2 : k = j := by omega
                subst hkj2
                have hgkg : gk = g := by
                  rw [hj] at hk
                  injection hk with hkk
                  exact hkk.symm
                subst hgkg
                have hc3g : c3 ∈ gk := by
                  rw [hc2]
                  exact hc2k
                have hss2 : sameSide gs c0 c3 = true :=
                  sameSide_iff.mpr ⟨gk, hgmem, hc, hc3g⟩
                rw [hss2] at hadj1
                exact absurd hadj1 (by simp)
        have := vwh_complete suf child [c0] (j : Int) hsne hcpl
          (by simp only [List.length_singleton]
              simp only [List.length_cons] at hlen
              omega) hss
        simpa using this

/-! C1, step 4: coverage, summation and counting toolkit. -/

theorem boxWF_flatten_length {gs : List Word} (hbox : boxWF gs) :
    gs.flatten.length = 12 := by
  obtain ⟨h4, h3, -⟩ := hbox
  have : ∀ (l : List Word), (∀ g ∈ l, g.length = 3) →
      l.flatten.length = 3 * l.length := by
    intro l
    induction l with
    | nil => simp
    | cons g rest ih =>
        intro hg
        rw [List.flatten_cons, List.length_append, ih (fun x hx => hg x (by simp [hx])),
          hg g (by simp)]
        simp
        ring
  rw [this gs h3, h4]

theorem coversBox_iff {gs : List Word} {w1 w2 w3 : Word} :
    coversBox gs w1 w2 w3 = true ↔
      ∀ g ∈ gs, ∀ c ∈ g, c ∈ w1 ∨ c ∈ w2 ∨ c ∈ w3 := by
  simp [coversBox, or_assoc]

theorem inBox_subset {gs : List Word} {w : Word} (h : inBox gs w = true) :
    ∀ c ∈ w, c ∈ gs.flatten := by
  intro c hc
  simp only [inBox, List.all_eq_true, List.any_eq_true, decide_eq_true_eq] at h
  obtain ⟨g, hg, hcg⟩ := h c hc
  exact List.mem_flatten.mpr ⟨g, hg, hcg⟩

/-- Under a well-formed box, a chain of three in-box words is complete for
`isGameComplete` exactly when it covers every box letter. -/
theorem isGameComplete_iff_covers {gs : List Word} (hbox : boxWF gs)
    {w1 w2 w3 : Word} (h1 : inBox gs w1 = true) (h2 : inBox gs w2 = true)
    (h3 : inBox gs w3 = true) :
    (isGameComplete [w1, w2, w3] = true ↔ coversBox gs w1 w2 w3 = true) := by
  rw [isGameComplete_iff_card]
  have hflat : ([w1, w2, w3] : List Word).flatten = w1 ++ (w2 ++ w3) := by simp
  rw [hflat]
  have hnd := hbox.2.2
  have hBcard : gs.flatten.toFinset.card = 12 := by
    rw [List.toFinset_card_of_nodup hnd, boxWF_flatten_length hbox]
  have hSB : (w1 ++ (w2 ++ w3)).toFinset ⊆ gs.flatten.toFinset := by
    intro c hc
    rw [List.mem_toFinset] at hc
    rw [List.mem_toFinset]
    rcases List.mem_append.mp hc with hc1 | hc23
    · exact inBox_subset h1 c hc1
    · rcases List.mem_append.mp hc23 with hc2 | hc3
      · exact inBox_subset h2 c hc2
      · exact inBox_subset h3 c hc3
  constructor
  · intro hcard
    have heq : (w1 ++ (w2 ++ w3)).toFinset = gs.flatten.toFinset :=
      Finset.eq_of_subset_of_card_le hSB (by omega)
    rw [coversBox_iff]
    intro g hg c hcg
    have hcB : c ∈ gs.flatten.toFinset :=
      List.mem_toFinset.mpr (List.mem_flatten.mpr ⟨g, hg, hcg⟩)
    rw [← heq, List.mem_toFinset] at hcB
    rcases List.mem_append.mp hcB with hc1 | hc23
    · exact Or.inl hc1
    · rcases List.mem_append.mp hc23 with hc2 | hc3
      · exact Or.inr (Or.inl hc2)
      · exact Or.inr (Or.inr hc3)
  · intro hcov
    rw [coversBox_iff] at hcov
    have hBS : gs.flatten.toFinset ⊆ (w1 ++ (w2 ++ w3)).toFinset := by
      intro c hc
      rw [List.mem_toFinset] at hc
      obtain ⟨g, hg, hcg⟩ := List.mem_flatten.mp hc
      rw [List.mem_toFinset]
      rcases hcov g hg c hcg with hh | hh | hh
      · exact List.mem_append.mpr (Or.inl hh)
      · exact List.mem_append.mpr (Or.inr (List.mem_append.mpr (Or.inl hh)))
      · exact List.mem_append.mpr (Or.inr (List.mem_append.mpr (Or.inr hh)))
    have := Finset.card_le_card hBS
    omega

theorem getLast?_mem_of_ne_nil : ∀ (w : Word), w ≠ [] →
    ∃ c, w.getLast? = some c ∧ c ∈ w := by
  intro w
  induction w with
  | nil => intro h; exact absurd rfl h
  | cons a rest ih =>
      intro _
      cases rest with
      | nil => exact ⟨a, rfl, by simp⟩
      | cons b rs =>
          obtain ⟨c, hc, hcm⟩ := ih (by simp)
          exact ⟨c, by rw [List.getLast?_cons_cons]; exact hc, by simp [hcm]⟩

theorem sumChain_spec (rec : List Word → Option Nat) (words : List Word)
    (nexts : List Word) (k : Word → Nat)
    (h : ∀ n ∈ nexts, n ∉ words → rec (words ++ [n]) = some (k n)) :
    sumChain rec words nexts =
      some (((nexts.filter (fun n => decide (n ∉ words))).map k).sum) := by
  induction nexts with
  | nil => rfl
  | cons n rest ih =>
      have ihr := ih (fun m hm hm2 => h m (List.mem_cons_of_mem _ hm) hm2)
      rw [sumChain]
      by_cases hmem : n ∈ words
      · rw [if_pos hmem, ihr]
        have : (List.filter (fun n => decide (n ∉ words)) (n :: rest)) =
            List.filter (fun n => decide (n ∉ words)) rest := by
          rw [List.filter_cons]
          simp [hmem]
        rw [this]
      · rw [if_neg hmem, h n (by simp) hmem, ihr]
        have : (List.filter (fun n => decide (n ∉ words)) (n :: rest)) =
            n :: List.filter (fun n => decide (n ∉ words)) rest := by
          rw [List.filter_cons]
          simp [hmem]
        rw [this]
        simp

theorem sumOuter_spec (f : Word → Option Nat) (l : List Word) (k : Word → Nat)
    (h : ∀ w ∈ l, f w = some (k w)) :
    sumOuter f l = some ((l.map k).sum) := by
  induction l with
  | nil => rfl
  | cons w rest ih =>
      rw [sumOuter, h w (by simp), ih (fun m hm => h m (List.mem_cons_of_mem _ hm))]
      simp

theorem sum_indicator_eq_countP (p : Word → Bool) (l : List Word) :
    (l.map (fun n => if p n = true then 1 else 0)).sum = l.countP p := by
  induction l with
  | nil => rfl
  | cons n rest ih =>
      rw [List.map_cons, List.sum_cons, ih, List.countP_cons]
      by_cases hp : p n = true
      · simp [hp]
        omega
      · simp [hp]

theorem perm_of_nodup_mem_iff {l1 l2 : List Word} (h1 : l1.Nodup) (h2 : l2.Nodup)
    (h : ∀ a, a ∈ l1 ↔ a ∈ l2) : l1.Perm l2 :=
  List.perm_of_nodup_nodup_toFinset_eq h1 h2
    (Finset.ext fun a => by
      rw [List.mem_toFinset, List.mem_toFinset]
      exact h a)

theorem length_filter_flatMap {α β : Type} (l : List α) (f : α → List β)
    (p : β → Bool) :
    ((l.flatMap f).filter p).length =
      (l.map (fun a => ((f a).filter p).length)).sum := by
  induction l with
  | nil => rfl
  | cons a rest ih =>
      rw [List.flatMap_cons, List.filter_append, List.length_append, ih,
        List.map_cons, List.sum_cons]

theorem sum_map_filter_zero {α : Type} (l : List α) (p : α → Bool) (F : α → Nat)
    (h : ∀ a ∈ l, p a = false → F a = 0) :
    (l.map F).sum = ((l.filter p).map F).sum := by
  induction l with
  | nil => rfl
  | cons a rest ih =>
      have ihr := ih (fun x hx => h x (List.mem_cons_of_mem _ hx))
      rw [List.map_cons, List.sum_cons, List.filter_cons]
      by_cases hp : p a = true
      · simp only [hp, if_pos]
        rw [List.map_cons, List.sum_cons, ihr]
      · simp only [Bool.not_eq_true] at hp
        rw [h a (by simp) hp, ihr]
        simp [hp]

/-! C1, step 5: the value of the chain helper, level by level. -/

theorem validWords_nodup {dictionary : Trie} {gs : List Word}
    (hnd : gs.flatten.Nodup) : (validWords dictionary gs).Nodup := by
  rw [validWords]
  exact vwh_nodup hnd dictionary [] (-1)

/-- For a box-valid word, the continuation list of its last letter exists
(given the root-child hypothesis) and contains exactly the box-valid words
starting with that letter. -/
theorem step_of_spec {dictionary : Trie} {gs : List Word} (hnd : gs.flatten.Nodup)
    (H : ∀ w ∈ validWords dictionary gs, ∀ c, w.getLast? = some c →
      (lookupChild dictionary.children c).isSome = true)
    {w : Word} (hw : specBoxValid dictionary gs w = true) :
    ∃ c ws, w.getLast? = some c ∧
      validWordsStartingWith dictionary gs [c] = SWResult.ok ws ∧
      ws.Nodup ∧
      (∀ x, x ∈ ws ↔ (specBoxValid dictionary gs x = true ∧ x.head? = some c)) := by
  have hwne : w ≠ [] := by
    intro heq
    subst heq
    have := (specBoxValid_iff.mp hw).1
    simp at this
  obtain ⟨c, hc, hcm⟩ := getLast?_mem_of_ne_nil w hwne
  have hib := (specBoxValid_iff.mp hw).2.1
  have hside : ∃ g ∈ gs, c ∈ g := by
    simp only [inBox, List.all_eq_true, List.any_eq_true, decide_eq_true_eq] at hib
    exact hib c hcm
  obtain ⟨g, hg, hcg⟩ := hside
  obtain ⟨j, hj⟩ := List.mem_iff_getElem?.mp hg
  have hmem : w ∈ validWords dictionary gs := (mem_validWords_iff hnd w).mpr hw
  have hchild := H w hmem c hc
  rw [Option.isSome_iff_exists] at hchild
  obtain ⟨child, hchild⟩ := hchild
  exact ⟨c, validWordHelper child [c] gs (j : Int), hc, vwsw_ok hnd hj hcg hchild,
    vwh_nodup hnd child [c] (j : Int), fun x => mem_step_iff hnd hj hcg hchild x⟩

theorem chainStepFn_len3 {dictionary : Trie} {gs : List Word} (hnd : gs.flatten.Nodup)
    (H : ∀ w ∈ validWords dictionary gs, ∀ c, w.getLast? = some c →
      (lookupChild dictionary.children c).isSome = true)
    {w1 w2 w3 : Word} (hw3 : specBoxValid dictionary gs w3 = true)
    (rec : List Word → Option Nat) :
    chainStepFn dictionary gs rec [w1, w2, w3] =
      some (if isGameComplete [w1, w2, w3] = true then 1 else 0) := by
  obtain ⟨c, ws, hc, hok, -, -⟩ := step_of_spec hnd H hw3
  have hlast : ([w1, w2, w3] : List Word).getLast? = some w3 := by
    rw [List.getLast?_cons_cons, List.getLast?_cons_cons, List.getLast?_singleton]
  rw [chainStepFn]
  simp only [hlast, hc, hok]
  simp

theorem nosAux_len3 {dictionary : Trie} {gs : List Word} (hnd : gs.flatten.Nodup)
    (H : ∀ w ∈ validWords dictionary gs, ∀ c, w.getLast? = some c →
      (lookupChild dictionary.children c).isSome = true)
    {w1 w2 w3 : Word} (hw3 : specBoxValid dictionary gs w3 = true) (fuel : Nat) :
    nosHelperAux dictionary gs fuel [w1, w2, w3] =
      some (if isGameComplete [w1, w2, w3] = true then 1 else 0) := by
  cases fuel with
  | zero => rw [nosHelperAux]; exact chainStepFn_len3 hnd H hw3 _
  | succ f => rw [nosHelperAux]; exact chainStepFn_len3 hnd H hw3 _

theorem nosAux_len2 {dictionary : Trie} {gs : List Word} (hnd : gs.flatten.Nodup)
    (H : ∀ w ∈ validWords dictionary gs, ∀ c, w.getLast? = some c →
      (lookupChild dictionary.children c).isSome = true)
    {w1 w2 : Word}
    (hw2 : specBoxValid dictionary gs w2 = true) (fuel : Nat) :
    nosHelperAux dictionary gs (fuel + 1) [w1, w2] =
      some ((validWords dictionary gs).countP
        (fun w3 => chainStepOk w2 w3 && decide (w3 ≠ w1) && decide (w3 ≠ w2) &&
          isGameComplete [w1, w2, w3])) := by
  obtain ⟨c2, ws2, hc2, hok2, hnd2, hmem2⟩ := step_of_spec hnd H hw2
  have hlast : ([w1, w2] : List Word).getLast? = some w2 := by
    rw [List.getLast?_cons_cons, List.getLast?_singleton]
  rw [nosHelperAux, chainStepFn]
  simp only [hlast, hc2, hok2]
  rw [if_neg (by simp)]
  have hsum := sumChain_spec (nosHelperAux dictionary gs fuel) [w1, w2] ws2
    (fun n => if isGameComplete [w1, w2, n] = true then 1 else 0)
    (fun n hn _ => by
      have hspec := ((hmem2 n).mp hn).1
      exact nosAux_len3 hnd H hspec fuel)
  rw [hsum]
  congr 1
  rw [sum_indicator_eq_countP, List.countP_filter]
  have hperm : ws2.Perm ((validWords dictionary gs).filter
      (fun x => decide (x.head? = some c2))) := by
    refine perm_of_nodup_mem_iff hnd2 ((validWords_nodup hnd).filter _) ?_
    intro a
    rw [List.mem_filter, hmem2 a, mem_validWords_iff hnd a]
    simp
  rw [hperm.countP_eq, List.countP_filter]
  refine List.countP_congr ?_
  intro w3 hw3mem
  have hspec3 : specBoxValid dictionary gs w3 = true :=
    (mem_validWords_iff hnd w3).mp hw3mem
  simp only [chainStepOk, hc2, Bool.and_eq_true, decide_eq_true_eq,
    List.mem_cons, List.mem_singleton, not_or, List.not_mem_nil, or_false]
  constructor
  · rintro ⟨⟨hgc, ⟨hne1, hne2⟩⟩, hhead⟩
    exact ⟨⟨⟨hhead, hne1⟩, hne2⟩, hgc⟩
  · rintro ⟨⟨⟨hhead, hne1⟩, hne2⟩, hgc⟩
    exact ⟨⟨hgc, hne1, hne2⟩, hhead⟩

theorem nos_len1 {dictionary : Trie} {gs : List Word} (hnd : gs.flatten.Nodup)
    (H : ∀ w ∈ validWords dictionary gs, ∀ c, w.getLast? = some c →
      (lookupChild dictionary.children c).isSome = true)
    {w1 : Word} (hw1 : specBoxValid dictionary gs w1 = true) :
    nosHelper dictionary gs [w1] =
      some ((((validWords dictionary gs).filter
          (fun w2 => chainStepOk w1 w2 && decide (w2 ≠ w1))).map
        (fun w2 => (validWords dictionary gs).countP
          (fun w3 => chainStepOk w2 w3 && decide (w3 ≠ w1) && decide (w3 ≠ w2) &&
            isGameComplete [w1, w2, w3]))).sum) := by
  obtain ⟨c1, ws1, hc1, hok1, hnd1, hmem1⟩ := step_of_spec hnd H hw1
  have h2 : (3 - ([w1] : List Word).length) = 2 := by simp
  rw [nosHelper, h2]
  have hlast : ([w1] : List Word).getLast? = some w1 := List.getLast?_singleton w1
  rw [show (2 : Nat) = 1 + 1 from rfl, nosHelperAux, chainStepFn]
  simp only [hlast, hc1, hok1]
  rw [if_neg (by simp)]
  have hsum := sumChain_spec (nosHelperAux dictionary gs 1) [w1] ws1
    (fun w2 => (validWords dictionary gs).countP
      (fun w3 => chainStepOk w2 w3 && decide (w3 ≠ w1) && decide (w3 ≠ w2) &&
        isGameComplete [w1, w2, w3]))
    (fun n hn hnmem => by
      have hspec := ((hmem1 n).mp hn).1
      exact nosAux_len2 hnd H hspec 0)
  rw [hsum]
  congr 1
  have hperm : (ws1.filter (fun n => decide (n ∉ ([w1] : List Word)))).Perm
      ((validWords dictionary gs).filter
        (fun w2 => chainStepOk w1 w2 && decide (w2 ≠ w1))) := by
    refine perm_of_nodup_mem_iff (hnd1.filter _) ((validWords_nodup hnd).filter _) ?_
    intro a
    rw [List.mem_filter, List.mem_filter, hmem1 a, mem_validWords_iff hnd a]
    simp [chainStepOk, hc1]
    tauto
  exact (hperm.map _).sum_eq

/-! C1, step 6: the chain enumeration. -/

theorem product2_nodup (w1 : Word) :
    ∀ (l1 l2 : List Word), l1.Nodup → l2.Nodup →
      (l1.flatMap fun w2 => l2.map fun w3 => (w1, w2, w3)).Nodup := by
  intro l1
  induction l1 with
  | nil => intro l2 _ _; simp
  | cons a rest ih =>
      intro l2 h1 h2
      rw [List.flatMap_cons, List.nodup_append, List.nodup_cons] at *
      refine ⟨?_, ih l2 h1.2 h2, ?_⟩
      · refine h2.map ?_
        intro x y hxy
        simpa using hxy
      · intro x hx hx2
        simp only [List.mem_map] at hx
        obtain ⟨w3, -, hxeq⟩ := hx
        simp only [List.mem_flatMap, List.mem_map] at hx2
        obtain ⟨w2b, hw2b, w3b, -, hxeq2⟩ := hx2
        rw [← hxeq] at hxeq2
        simp only [Prod.mk.injEq] at hxeq2
        exact h1.1 (hxeq2.2.1 ▸ hw2b)

theorem product3_nodup :
    ∀ (l0 l : List Word), l0.Nodup → l.Nodup →
      (l0.flatMap fun w1 => l.flatMap fun w2 => l.map fun w3 => (w1, w2, w3)).Nodup := by
  intro l0
  induction l0 with
  | nil => intro l _ _; simp
  | cons a rest ih =>
      intro l h0 h
      rw [List.flatMap_cons, List.nodup_append, List.nodup_cons] at *
      refine ⟨product2_nodup a l l h h, ih l h0.2 h, ?_⟩
      intro x hx hx2
      simp only [List.mem_flatMap, List.mem_map] at hx hx2
      obtain ⟨w2, -, w3, -, hxeq⟩ := hx
      obtain ⟨w1b, hw1b, w2b, -, w3b, -, hxeq2⟩ := hx2
      rw [← hxeq] at hxeq2
      simp only [Prod.mk.injEq] at hxeq2
      exact h0.1 (hxeq2.1 ▸ hw1b)

/-- The chain enumeration has no repetitions. -/
theorem chainList_nodup {dictionary : Trie} {gs : List Word}
    (hnd : gs.flatten.Nodup) : (chainList dictionary gs).Nodup := by
  rw [chainList]
  exact (product3_nodup _ _ (validWords_nodup hnd) (validWords_nodup hnd)).filter _

/-- Membership in the chain enumeration is exactly the specification's
notion of a solution chain. -/
theorem mem_chainList_iff {dictionary : Trie} {gs : List Word}
    (hnd : gs.flatten.Nodup) (t : Word × Word × Word) :
    t ∈ chainList dictionary gs ↔ specSolution dictionary gs t = true := by
  rw [chainList, List.mem_filter]
  constructor
  · exact fun h => h.2
  · intro hspec
    refine ⟨?_, hspec⟩
    obtain ⟨w1, w2, w3⟩ := t
    simp only [specSolution, Bool.and_eq_true] at hspec
    obtain ⟨⟨⟨⟨⟨⟨⟨⟨hs1, hs2⟩, hs3⟩, -⟩, -⟩, -⟩, -⟩, -⟩, -⟩ := hspec
    simp only [List.mem_flatMap, List.mem_map]
    exact ⟨w1, (mem_validWords_iff hnd w1).mpr hs1,
      w2, (mem_validWords_iff hnd w2).mpr hs2,
      w3, (mem_validWords_iff hnd w3).mpr hs3, rfl⟩

/-! C1, step 7: the count equality. -/

theorem count_inner {dictionary : Trie} {gs : List Word} (hbox : boxWF gs)
    {w1 w2 : Word}
    (hw1 : specBoxValid dictionary gs w1 = true)
    (hw2 : specBoxValid dictionary gs w2 = true)
    (hchain : chainStepOk w1 w2 = true) (hne : w2 ≠ w1) :
    ((validWords dictionary gs).filter
        (fun w3 => specSolution dictionary gs (w1, w2, w3))).length =
      (validWords dictionary gs).countP
        (fun w3 => chainStepOk w2 w3 && decide (w3 ≠ w1) && decide (w3 ≠ w2) &&
          isGameComplete [w1, w2, w3]) := by
  have hnd := hbox.2.2
  rw [← List.countP_eq_length_filter]
  refine List.countP_congr ?_
  intro w3 hw3mem
  have hspec3 : specBoxValid dictionary gs w3 = true :=
    (mem_validWords_iff hnd w3).mp hw3mem
  have hcov := isGameComplete_iff_covers hbox
    (specBoxValid_iff.mp hw1).2.1 (specBoxValid_iff.mp hw2).2.1
    (specBoxValid_iff.mp hspec3).2.1
  simp only [specSolution, Bool.and_eq_true, decide_eq_true_eq]
  constructor
  · rintro ⟨⟨⟨⟨⟨⟨⟨⟨-, -⟩, -⟩, -⟩, hc23⟩, -⟩, hne13⟩, hne23⟩, hcovb⟩
    exact ⟨⟨⟨hc23, Ne.symm hne13⟩, Ne.symm hne23⟩, hcov.mpr hcovb⟩
  · rintro ⟨⟨⟨hc23, hne31⟩, hne32⟩, hgc⟩
    exact ⟨⟨⟨⟨⟨⟨⟨⟨hw1, hw2⟩, hspec3⟩, hchain⟩, hc23⟩, Ne.symm hne⟩,
      Ne.symm hne31⟩, Ne.symm hne32⟩, hcov.mp hgc⟩

theorem count_middle {dictionary : Trie} {gs : List Word} (hbox : boxWF gs)
    {w1 : Word} (hw1 : specBoxValid dictionary gs w1 = true) :
    (((validWords dictionary gs).flatMap
        (fun w2 => (validWords dictionary gs).map fun w3 => (w1, w2, w3))).filter
      (specSolution dictionary gs)).length =
    ((((validWords dictionary gs).filter
        (fun w2 => chainStepOk w1 w2 && decide (w2 ≠ w1))).map
      (fun w2 => (validWords dictionary gs).countP
        (fun w3 => chainStepOk w2 w3 && decide (w3 ≠ w1) && decide (w3 ≠ w2) &&
          isGameComplete [w1, w2, w3]))).sum) := by
  have hnd := hbox.2.2
  rw [length_filter_flatMap]
  have hinner : ∀ w2 : Word,
      (((validWords dictionary gs).map fun w3 => (w1, w2, w3)).filter
        (specSolution dictionary gs)).length =
      ((validWords dictionary gs).filter
        (fun w3 => specSolution dictionary gs (w1, w2, w3))).length := by
    intro w2
    rw [List.filter_map, List.length_map]
    rfl
  rw [List.map_congr_left (fun w2 _ => hinner w2)]
  rw [sum_map_filter_zero (validWords dictionary gs)
    (fun w2 => chainStepOk w1 w2 && decide (w2 ≠ w1)) _ ?_]
  · refine congrArg List.sum (List.map_congr_left ?_)
    intro w2 hw2mem
    rw [List.mem_filter] at hw2mem
    obtain ⟨hw2mem, hq⟩ := hw2mem
    simp only [Bool.and_eq_true, decide_eq_true_eq] at hq
    exact count_inner hbox hw1 ((mem_validWords_iff hnd w2).mp hw2mem) hq.1 hq.2
  · intro w2 _ hq
    rw [List.length_eq_zero, List.filter_eq_nil_iff]
    intro w3 _
    intro hspec
    simp only [specSolution, Bool.and_eq_true, decide_eq_true_eq] at hspec
    obtain ⟨⟨⟨⟨⟨⟨⟨⟨-, -⟩, -⟩, hc12⟩, -⟩, hne12⟩, -⟩, -⟩, -⟩ := hspec
    rw [Bool.and_eq_false_iff] at hq
    rcases hq with hq | hq
    · rw [hc12] at hq
      cases hq
    · simp only [decide_eq_false_iff_not, Decidable.not_not] at hq
      exact hne12 hq.symm

/-! C1: the solution count. -/

/-- C1, amended: provided the trie root has a child for the last letter of
every box-valid word (otherwise the search dereferences a nil trie node
and never returns, the hazard shown in C9), `numberOfSolutions` returns
exactly the number of chains of exactly three words that are box-valid,
chained first-letter-to-last-letter, pairwise distinct, and jointly cover
the twelve box letters: the value is the length of the duplicate-free
enumeration `chainList`, whose members are exactly those chains. -/
theorem c1_count (dictionary : Trie) (gs : List Word)
    (hbox : boxWF gs)
    (H : ∀ w ∈ validWords dictionary gs, ∀ c, w.getLast? = some c →
      (lookupChild dictionary.children c).isSome = true) :
    numberOfSolutions dictionary gs = some ((chainList dictionary gs).length) ∧
    (chainList dictionary gs).Nodup ∧
    (∀ t, t ∈ chainList dictionary gs ↔ specSolution dictionary gs t = true) := by
  have hnd := hbox.2.2
  refine ⟨?_, chainList_nodup hnd, fun t => mem_chainList_iff hnd t⟩
  rw [numberOfSolutions, rankSort]
  rw [sumOuter_perm _ (List.mergeSort_perm (validWords dictionary gs) _)]
  rw [sumOuter_spec _ _ _
    (fun w1 hw1 => nos_len1 hnd H ((mem_validWords_iff hnd w1).mp hw1))]
  congr 1
  simp only [chainList]
  rw [length_filter_flatMap]
  exact congrArg List.sum (List.map_congr_left fun w1 hw1 =>
    (count_middle hbox ((mem_validWords_iff hnd w1).mp hw1)).symm)

theorem validWords_trieEmpty : validWords trieEmpty boxStd = [] := by
  simp [trieEmpty, buildTrie, boxStd, validWords, validWordHelper, vwGroups,
    vwChars, lookupChild, Trie.children]

/-- C1, witness: the empty dictionary over the standard box, where the
root-child hypothesis holds vacuously and both sides are zero. -/
theorem c1_count_witness :
    numberOfSolutions trieEmpty boxStd =
      some ((chainList trieEmpty boxStd).length) ∧
    (chainList trieEmpty boxStd).Nodup ∧
    (∀ t, t ∈ chainList trieEmpty boxStd ↔
      specSolution trieEmpty boxStd t = true) := by
  refine c1_count trieEmpty boxStd boxWF_boxStd ?_
  intro w hw
  rw [validWords_trieEmpty] at hw
  cases hw

theorem rankSort_trieADG :
    rankSort (validWords trieADG boxStd) = [['A', 'D', 'G']] := by
  rw [validWords_trieADG]
  simp [rankSort]

/-- C1, counterexample: on the dictionary {ADG} and the standard box, the
only box-valid word is ADG, there is no solution chain, yet
`numberOfSolutions` does not return 0: its depth-first search asks for the
continuations of the letter G, the root has no child G, and the search
dereferences a nil trie node (`none` models the panic).  The claim as
stated — for every dictionary trie and box layout the count is returned —
therefore fails. -/
theorem c1_counterexample :
    numberOfSolutions trieADG boxStd = none ∧
    chainList trieADG boxStd = [] ∧
    numberOfSolutions trieADG boxStd ≠
      some ((chainList trieADG boxStd).length) := by
  have h1 : numberOfSolutions trieADG boxStd = none := by
    rw [numberOfSolutions, rankSort_trieADG, trieADG_eq]
    simp [sumOuter, nosHelper, nosHelperAux, chainStepFn, validWordsStartingWith,
      findActiveGroup, containsSub, startsWith, lookupChild, Trie.children,
      boxStd, sumChain]
  have h2 : chainList trieADG boxStd = [] := by
    simp only [chainList, validWords_trieADG]
    decide
  exact ⟨h1, h2, by rw [h1]; simp⟩

end LetterBoxed
